import Mathlib

/-!
Verification of the Pygraphene tick subsystem (`src/ticker.py`).

Shallow embedding, Python 2 semantics:
* Python `float` arithmetic is modelled exactly over `ℚ` (an exact-arithmetic
  model of the floating-point program); Python `int` over `ℤ`.
* Python 2 `round` rounds half away from zero (`pyRound`).
* `ZeroDivisionError` (and `TypeError` from non-numeric arithmetic operands)
  is modelled by an `Option` result.
* Dynamically typed setter arguments are modelled by the `PyVal` type; every
  setter is a total function (the Python setters perform only `isinstance`
  tests, which cannot raise).
-/

set_option linter.unusedVariables false

/-- Model of a dynamically typed Python value, covering the types the
ticker module's `isinstance` tests distinguish. -/
inductive PyVal where
  | int (n : ℤ)
  | float (q : ℚ)
  | str (s : String)
  | list (l : List PyVal)
  | tuple (l : List PyVal)
  | none

/-- Test `isinstance(v, int)`. -/
def PyVal.isInt : PyVal → Bool
  | .int _ => true
  | _ => false

/-- Test `isinstance(v, int) or isinstance(v, float)`. -/
def PyVal.isNum : PyVal → Bool
  | .int _ => true
  | .float _ => true
  | _ => false

/-- Test `isinstance(v, str)`. -/
def PyVal.isStr : PyVal → Bool
  | .str _ => true
  | _ => false

/-- Test `isinstance(v, list) or isinstance(v, tuple)`. -/
def PyVal.isListOrTuple : PyVal → Bool
  | .list _ => true
  | .tuple _ => true
  | _ => false

/-- Elements of a Python list or tuple (the effect of `list(v)`). -/
def PyVal.elems : PyVal → List PyVal
  | .list l => l
  | .tuple l => l
  | _ => []

/-- Numeric value of an `int` or `float` (junk `0` otherwise; used only
under `isNum` guards). -/
def PyVal.toQ : PyVal → ℚ
  | .int n => n
  | .float q => q
  | _ => 0

/-- Model of Python 2 `int(round(q))`: round half away from zero. -/
def pyRound (q : ℚ) : ℤ :=
  if 0 ≤ q then ⌊q + 1 / 2⌋ else -⌊-q + 1 / 2⌋

/-- Embeds `NullLocator.locations` (src/ticker.py:34): always empty. -/
def NullLocator.locations (start e : ℚ) (axisType : String) : List ℚ := []

/-- Configuration of `LinearLocator` (src/ticker.py:37). -/
structure LinearLocator where
  _num : ℤ

/-- Embeds `LinearLocator.setNum` (src/ticker.py:56): accepts only `int`,
otherwise leaves the configuration unchanged. -/
def LinearLocator.setNum (num : PyVal) (s : LinearLocator) : LinearLocator :=
  match num with
  | .int n => { _num := n }
  | _ => s

/-- Embeds `LinearLocator.__init__` (src/ticker.py:42): default `_num = 5`,
then `setNum(num)`. -/
def LinearLocator.init (num : PyVal) : LinearLocator :=
  LinearLocator.setNum num { _num := 5 }

/-- Embeds `LinearLocator.locations` (src/ticker.py:63).  The loop
`for i in range(num - 1): locs.append(start); start += delta` yields the
values `start + i * delta`; the argument `end` is appended literally as the
last element.  The result is `none` exactly when `num == 1` after the minor
adjustment, where the source raises `ZeroDivisionError` in
`(float(end) - float(start)) / float(num - 1)`. -/
def LinearLocator.locations (s : LinearLocator) (start e : ℚ) (axisType : String) :
    Option (List ℚ) :=
  let num : ℤ := if axisType = "minor" then s._num + 2 else s._num
  if num = 1 then Option.none
  else
    let delta : ℚ := (e - start) / ((num : ℚ) - 1)
    some (((List.range (num - 1).toNat).map fun i : ℕ => start + (i : ℚ) * delta) ++ [e])

/-- Embeds `LinearLocator.setValues` (src/ticker.py:89):
`kwargs.pop('num', None)` then `setNum`; `Option.none` models an absent key. -/
def LinearLocator.setValues (numArg : Option PyVal) (s : LinearLocator) : LinearLocator :=
  LinearLocator.setNum (numArg.getD PyVal.none) s

/-- Configuration of `FixedLocator` (src/ticker.py:99).  A Python object
whose `__init__` was given an invalid `nTicks` has no `_nTicks` attribute at
all (its `locations` would raise `AttributeError`); that unset attribute is
modelled as `Option.none`, the same as an explicit `None`. -/
structure FixedLocator where
  _locations : List PyVal
  _nTicks : Option ℤ

/-- Embeds `FixedLocator.setLocations` (src/ticker.py:124): accepts only a
list or tuple (stored as given, not sorted despite the docstring). -/
def FixedLocator.setLocations (v : PyVal) (s : FixedLocator) : FixedLocator :=
  if v.isListOrTuple then { s with _locations := v.elems } else s

/-- Embeds `FixedLocator.setNTicks` (src/ticker.py:133): `None` clears,
an `int` is clamped up to `2`, anything else is ignored. -/
def FixedLocator.setNTicks (v : PyVal) (s : FixedLocator) : FixedLocator :=
  match v with
  | .none => { s with _nTicks := Option.none }
  | .int n => { s with _nTicks := some (if n < 2 then 2 else n) }
  | _ => s

/-- Embeds `FixedLocator.__init__` (src/ticker.py:104). -/
def FixedLocator.init (locArg nTicksArg : PyVal) : FixedLocator :=
  FixedLocator.setNTicks nTicksArg
    (FixedLocator.setLocations locArg { _locations := [], _nTicks := Option.none })

/-- Embeds `FixedLocator.locations` (src/ticker.py:146), including the
in-method clamp `self._nTicks = 2` — a self-mutation, which is why this
method is modelled as returning the updated state paired with the result.
`locations[int(round(i * subsamplingDistance))]` is modelled with
`List.getD` (in states produced by the constructor and setters the index is
always in range) and `locations[-1]` with `getLast?`. -/
def FixedLocator.locations (s : FixedLocator) (start e : ℚ) (axisType : String) :
    FixedLocator × List PyVal :=
  match s._nTicks with
  | Option.none => (s, s._locations)
  | some t =>
    if (s._locations.length : ℤ) ≤ t then (s, s._locations)
    else
      let t' := if t < 2 then 2 else t
      let s' : FixedLocator := { s with _nTicks := some t' }
      let n : ℤ := t' - 1
      let d : ℚ := ((s._locations.length : ℚ) - 1) / (n : ℚ)
      let locs := (List.range n.toNat).map fun i : ℕ =>
        s._locations.getD (pyRound ((i : ℚ) * d)).toNat PyVal.none
      (s', locs ++ [(s._locations.getLast?).getD PyVal.none])

/-- Embeds `FixedLocator.setValues` (src/ticker.py:175): each key is applied
only when present. -/
def FixedLocator.setValues (locArg nTicksArg : Option PyVal) (s : FixedLocator) : FixedLocator :=
  let s1 := match locArg with
    | some v => FixedLocator.setLocations v s
    | Option.none => s
  match nTicksArg with
  | some v => FixedLocator.setNTicks v s1
  | Option.none => s1

/-- States of `FixedLocator` reachable through the constructor and the
setters (src/ticker.py:104-189). -/
inductive FixedLocator.Reachable : FixedLocator → Prop
  | init (locArg nTicksArg : PyVal) :
      FixedLocator.Reachable (FixedLocator.init locArg nTicksArg)
  | setLocations (v : PyVal) {s : FixedLocator} :
      FixedLocator.Reachable s → FixedLocator.Reachable (FixedLocator.setLocations v s)
  | setNTicks (v : PyVal) {s : FixedLocator} :
      FixedLocator.Reachable s → FixedLocator.Reachable (FixedLocator.setNTicks v s)
  | setValues (locArg nTicksArg : Option PyVal) {s : FixedLocator} :
      FixedLocator.Reachable s → FixedLocator.Reachable (FixedLocator.setValues locArg nTicksArg s)

/-- Configuration of `SpacedLocator` (src/ticker.py:191). -/
structure SpacedLocator where
  _base : ℚ
  _anchor : Option ℚ

/-- Embeds `SpacedLocator.setBase` (src/ticker.py:217): accepts a positive
`int` or `float`, otherwise leaves the configuration unchanged. -/
def SpacedLocator.setBase (v : PyVal) (s : SpacedLocator) : SpacedLocator :=
  match v with
  | .int n => if 0 < n then { s with _base := (n : ℚ) } else s
  | .float q => if 0 < q then { s with _base := q } else s
  | _ => s

/-- Embeds `SpacedLocator.setAnchor` (src/ticker.py:225): accepts an `int`,
`float` or `None`, otherwise leaves the configuration unchanged. -/
def SpacedLocator.setAnchor (v : PyVal) (s : SpacedLocator) : SpacedLocator :=
  match v with
  | .int n => { s with _anchor := some (n : ℚ) }
  | .float q => { s with _anchor := some q }
  | .none => { s with _anchor := Option.none }
  | _ => s

/-- Embeds `SpacedLocator.__init__` (src/ticker.py:198). -/
def SpacedLocator.init (baseArg anchorArg : PyVal) : SpacedLocator :=
  SpacedLocator.setAnchor anchorArg
    (SpacedLocator.setBase baseArg { _base := 1, _anchor := Option.none })

/-- Embeds the forward walk of `SpacedLocator.locations`
(src/ticker.py:251-255 and 267-271): `while loc < end: append loc; loc +=
base`, then one final `append loc`.  For `base ≤ 0` the Python loop never
terminates; the `0 < base` conjunct in the guard makes the Lean function
total, and `setBase` guarantees `0 < base` in every reachable state. -/
def SpacedLocator.upWalk (base e loc : ℚ) : List ℚ :=
  if h : 0 < base ∧ loc < e then loc :: SpacedLocator.upWalk base e (loc + base) else [loc]
termination_by (⌈(e - loc) / base⌉).toNat
decreasing_by
  have hb : base ≠ 0 := ne_of_gt h.1
  have hy : 0 < (e - loc) / base := div_pos (sub_pos.mpr h.2) h.1
  have h1 : 1 ≤ ⌈(e - loc) / base⌉ := Int.ceil_pos.mpr hy
  have h2 : ⌈(e - (loc + base)) / base⌉ = ⌈(e - loc) / base⌉ - 1 := by
    rw [show (e - (loc + base)) / base = (e - loc) / base - 1 by field_simp; ring]
    exact Int.ceil_sub_one _
  omega

/-- Embeds the backward walk of `SpacedLocator.locations`
(src/ticker.py:260-264): `while loc > start: insert(0, loc); loc -= base`,
then one final `insert(0, loc)`.  Same totality note as for `upWalk`. -/
def SpacedLocator.downWalk (base start loc : ℚ) : List ℚ :=
  if h : 0 < base ∧ start < loc then
    SpacedLocator.downWalk base start (loc - base) ++ [loc]
  else [loc]
termination_by (⌈(loc - start) / base⌉).toNat
decreasing_by
  have hb : base ≠ 0 := ne_of_gt h.1
  have hy : 0 < (loc - start) / base := div_pos (sub_pos.mpr h.2) h.1
  have h1 : 1 ≤ ⌈(loc - start) / base⌉ := Int.ceil_pos.mpr hy
  have h2 : ⌈(loc - base - start) / base⌉ = ⌈(loc - start) / base⌉ - 1 := by
    rw [show (loc - base - start) / base = (loc - start) / base - 1 by field_simp; ring]
    exact Int.ceil_sub_one _
  omega

/-- Embeds `SpacedLocator.locations` (src/ticker.py:232): the unanchored
branch is a single forward walk from `start`; the anchored branch is the
backward walk from `anchor` followed by the forward walk from
`anchor + base`. -/
def SpacedLocator.locations (s : SpacedLocator) (start e : ℚ) (axisType : String) : List ℚ :=
  match s._anchor with
  | Option.none => SpacedLocator.upWalk s._base e start
  | some a =>
      SpacedLocator.downWalk s._base start a ++ SpacedLocator.upWalk s._base e (a + s._base)

/-- Embeds `SpacedLocator.setValues` (src/ticker.py:275):
`kwargs.pop('base', None)` and `kwargs.pop('anchor', '')` — the empty-string
default is the sentinel that makes an absent `anchor` key a no-op, while an
explicit `None` clears the anchor. -/
def SpacedLocator.setValues (baseArg anchorArg : Option PyVal) (s : SpacedLocator) :
    SpacedLocator :=
  SpacedLocator.setAnchor (anchorArg.getD (PyVal.str ""))
    (SpacedLocator.setBase (baseArg.getD PyVal.none) s)

/-- Configuration of `LogLocator` (src/ticker.py:288). -/
structure LogLocator where
  _base : ℚ
  _subdivisions : List PyVal

/-- Embeds `LogLocator.setBase` (src/ticker.py:315): accepts any `int` or
`float` (no sign or range check in the source). -/
def LogLocator.setBase (v : PyVal) (s : LogLocator) : LogLocator :=
  if v.isNum then { s with _base := v.toQ } else s

/-- Embeds `LogLocator.setSubdivisions` (src/ticker.py:322): accepts only a
list or tuple. -/
def LogLocator.setSubdivisions (v : PyVal) (s : LogLocator) : LogLocator :=
  if v.isListOrTuple then { s with _subdivisions := v.elems } else s

/-- Embeds `LogLocator.__init__` (src/ticker.py:295). -/
def LogLocator.init (baseArg subsArg : PyVal) : LogLocator :=
  LogLocator.setSubdivisions subsArg
    (LogLocator.setBase baseArg { _base := 10, _subdivisions := [PyVal.int 1] })

/-- Fuel-indexed division counter: with sufficient fuel and `1 < b`,
`flogAux b fuel x` is the largest `k` with `b ^ k ≤ x` (for `1 ≤ x`). -/
def flogAux (b : ℚ) : ℕ → ℚ → ℕ
  | 0, _ => 0
  | fuel + 1, x => if b ≤ x then flogAux b fuel (x / b) + 1 else 0

/-- Fuel-indexed division counter: with sufficient fuel and `1 < b`,
`clogAux b fuel x` is the least `n` with `x ≤ b ^ n` (for `1 ≤ x`). -/
def clogAux (b : ℚ) : ℕ → ℚ → ℕ
  | 0, _ => 0
  | fuel + 1, x => if 1 < x then clogAux b fuel (x / b) + 1 else 0

/-- Fuel sufficient for `flogAux`/`clogAux` when `1 < b` and `1 ≤ x`:
`b ≥ 1 + 1/b.den`, so `b ^ k ≤ x` forces `k < b.den * ⌈x⌉₊ + 1`. -/
def logFuel (b x : ℚ) : ℕ := b.den * ⌈x⌉₊ + 1

/-- Models `int(math.floor(math.log(x, b)))` exactly over `ℚ`; meaningful
for `1 < b` and `0 < x` (the regime in which the source reaches this
computation without an uncaught error). -/
def pyFloorLog (b x : ℚ) : ℤ :=
  if 1 ≤ x then (flogAux b (logFuel b x) x : ℤ)
  else -(clogAux b (logFuel b x⁻¹) x⁻¹ : ℤ)

/-- Models `int(math.ceil(math.log(x, b)))` exactly over `ℚ`; meaningful
for `1 < b` and `0 < x`. -/
def pyCeilLog (b x : ℚ) : ℤ :=
  if 1 ≤ x then (clogAux b (logFuel b x) x : ℤ)
  else -(flogAux b (logFuel b x⁻¹) x⁻¹ : ℤ)

/-- Embeds `LogLocator.locations` (src/ticker.py:329).  For `1 < base`,
`math.log(x, base)` raises `ValueError` exactly when `x ≤ 0`, so the
`try/except ValueError` fallback to exponent `0` is modelled by the
`0 < start` / `0 < e` tests.  The `while exponent <= lastExponent` loop
emits `x * pow(base, exponent)` for each subdivision `x`; a non-numeric
subdivision would raise `TypeError` there, modelled as `none`. -/
def LogLocator.locations (s : LogLocator) (start e : ℚ) (axisType : String) :
    Option (List ℚ) :=
  if s._subdivisions.all PyVal.isNum then
    let firstExp : ℤ := if 0 < start then pyFloorLog s._base start else 0
    let lastExp : ℤ := if 0 < e then pyCeilLog s._base e else 0
    some ((List.range (lastExp + 1 - firstExp).toNat).flatMap fun i : ℕ =>
      s._subdivisions.map fun x => x.toQ * s._base ^ (firstExp + (i : ℤ)))
  else Option.none

/-- Embeds `LogLocator.setValues` (src/ticker.py:354): both keys default to
`None`, which both setters ignore. -/
def LogLocator.setValues (baseArg subsArg : Option PyVal) (s : LogLocator) : LogLocator :=
  LogLocator.setSubdivisions (subsArg.getD PyVal.none)
    (LogLocator.setBase (baseArg.getD PyVal.none) s)

/-- Embeds `NullLabeler.labels` (src/ticker.py:459): one empty string per
location. -/
def NullLabeler.labels {α : Type} (locations : List α) : List String :=
  List.replicate locations.length ""

/-- Configuration of `StringLabeler` (src/ticker.py:398). -/
structure StringLabeler where
  _labels : List PyVal

/-- Embeds `StringLabeler.setLabels` (src/ticker.py:411): accepts only a
list or tuple. -/
def StringLabeler.setLabels (v : PyVal) (s : StringLabeler) : StringLabeler :=
  if v.isListOrTuple then { _labels := v.elems } else s

/-- Embeds `StringLabeler.__init__` (src/ticker.py:407). -/
def StringLabeler.init (labelsArg : PyVal) : StringLabeler :=
  StringLabeler.setLabels labelsArg { _labels := [] }

/-- Embeds `StringLabeler.labels` (src/ticker.py:415): pad with `''` when
there are fewer configured labels than locations, truncate when there are
more, then `map(str, strings)`.  The parameter `pystr` models the Python
builtin `str`. -/
def StringLabeler.labels {α : Type} (pystr : PyVal → String) (s : StringLabeler)
    (locations : List α) : List String :=
  let locsLength := locations.length
  let labelsLength := s._labels.length
  let strings : List PyVal :=
    if locsLength = labelsLength then s._labels
    else if labelsLength < locsLength then
      s._labels ++ List.replicate (locsLength - labelsLength) (PyVal.str "")
    else s._labels.take locsLength
  strings.map pystr

/-- Configuration of `FormatLabeler` (src/ticker.py:430). -/
structure FormatLabeler where
  _fmt : Option String

/-- Embeds `FormatLabeler.setFormatter` (src/ticker.py:443): accepts a
string or `None`. -/
def FormatLabeler.setFormatter (v : PyVal) (s : FormatLabeler) : FormatLabeler :=
  match v with
  | .str f => { _fmt := some f }
  | .none => { _fmt := Option.none }
  | _ => s

/-- Embeds `FormatLabeler.__init__` (src/ticker.py:439). -/
def FormatLabeler.init (fmtArg : PyVal) : FormatLabeler :=
  FormatLabeler.setFormatter fmtArg { _fmt := Option.none }

/-- Embeds `FormatLabeler.labels` (src/ticker.py:447): the default string
conversion when no format is configured, the `%`-formatting otherwise.
`pystr` models `str` and `pyMod` models the `%` operator. -/
def FormatLabeler.labels {α : Type} (pystr : α → String) (pyMod : String → α → String)
    (s : FormatLabeler) (locations : List α) : List String :=
  match s._fmt with
  | Option.none => locations.map pystr
  | some f => locations.map (pyMod f)

/-- Sample concrete realization of the Python builtin `str` on `PyVal`
(identity on strings), used to instantiate the abstract `pystr` parameter
on concrete inputs. -/
def strOfPyVal : PyVal → String
  | .str s => s
  | _ => ""

/-- Validity invariant on the `_nTicks` field: what `setNTicks` can
produce — either unset or an integer at least `2`. -/
def FixedLocator.nTicksOK (s : FixedLocator) : Prop :=
  s._nTicks = Option.none ∨ ∃ t, s._nTicks = some t ∧ 2 ≤ t

/-! Helper lemmas about the walks of `SpacedLocator.locations`. -/

theorem upWalk_unfold (base e loc : ℚ) :
    SpacedLocator.upWalk base e loc =
      if 0 < base ∧ loc < e then loc :: SpacedLocator.upWalk base e (loc + base)
      else [loc] := by
  rw [SpacedLocator.upWalk]
  split <;> rfl

theorem upWalk_step {base e loc : ℚ} (h1 : 0 < base) (h2 : loc < e) :
    SpacedLocator.upWalk base e loc = loc :: SpacedLocator.upWalk base e (loc + base) := by
  rw [upWalk_unfold, if_pos ⟨h1, h2⟩]

theorem upWalk_done {base e loc : ℚ} (h2 : e ≤ loc) :
    SpacedLocator.upWalk base e loc = [loc] := by
  rw [upWalk_unfold, if_neg]
  exact fun hc => absurd h2 (not_le.mpr hc.2)

theorem downWalk_unfold (base start loc : ℚ) :
    SpacedLocator.downWalk base start loc =
      if 0 < base ∧ start < loc then
        SpacedLocator.downWalk base start (loc - base) ++ [loc]
      else [loc] := by
  rw [SpacedLocator.downWalk]
  split <;> rfl

theorem downWalk_step {base start loc : ℚ} (h1 : 0 < base) (h2 : start < loc) :
    SpacedLocator.downWalk base start loc =
      SpacedLocator.downWalk base start (loc - base) ++ [loc] := by
  rw [downWalk_unfold, if_pos ⟨h1, h2⟩]

theorem downWalk_done {base start loc : ℚ} (h2 : loc ≤ start) :
    SpacedLocator.downWalk base start loc = [loc] := by
  rw [downWalk_unfold, if_neg]
  exact fun hc => absurd h2 (not_le.mpr hc.2)

/-- C1: for every Labeler variant (NullLabeler, StringLabeler,
FormatLabeler), every configured state, and every input sequence of
positions, `labels(positions)` has exactly the same length as the input
(StringLabeler pads with empty strings when fewer labels are configured
than positions and truncates when more are configured). -/
theorem labelers_length_invariant {α : Type} (pystr : PyVal → String)
    (pystrF : α → String) (pyMod : String → α → String)
    (sS : StringLabeler) (sF : FormatLabeler) (locs : List α) :
    (NullLabeler.labels locs).length = locs.length ∧
    (StringLabeler.labels pystr sS locs).length = locs.length ∧
    (FormatLabeler.labels pystrF pyMod sF locs).length = locs.length ∧
    (sS._labels.length < locs.length →
      StringLabeler.labels pystr sS locs =
        sS._labels.map pystr ++
          List.replicate (locs.length - sS._labels.length) (pystr (PyVal.str ""))) ∧
    (locs.length < sS._labels.length →
      StringLabeler.labels pystr sS locs = (sS._labels.take locs.length).map pystr) := by
  refine ⟨?_, ?_, ?_, ?_, ?_⟩
  · simp [NullLabeler.labels]
  · unfold StringLabeler.labels
    by_cases h1 : locs.length = sS._labels.length
    · simp [h1]
    · by_cases h2 : sS._labels.length < locs.length
      · simp only [if_neg h1, if_pos h2, List.length_map, List.length_append,
          List.length_replicate]
        omega
      · simp only [if_neg h1, if_neg h2, List.length_map, List.length_take]
        omega
  · unfold FormatLabeler.labels
    cases sF._fmt <;> simp
  · intro h
    have hne : ¬ (locs.length = sS._labels.length) := by omega
    simp only [StringLabeler.labels, if_neg hne, if_pos h, List.map_append,
      List.map_replicate]
  · intro h
    have hne : ¬ (locs.length = sS._labels.length) := by omega
    have hnl : ¬ (sS._labels.length < locs.length) := by omega
    simp only [StringLabeler.labels, if_neg hne, if_neg hnl]

/-- C1 witness: `StringLabeler(['a','b']).labels([1,2,3])` pads to
`['a','b','']` and the length invariant holds on the same input. -/
theorem labelers_length_invariant_witness :
    StringLabeler.labels strOfPyVal ⟨[PyVal.str "a", PyVal.str "b"]⟩ ([1, 2, 3] : List ℚ) =
      ["a", "b", ""] ∧
    (StringLabeler.labels strOfPyVal ⟨[PyVal.str "a", PyVal.str "b"]⟩
      ([1, 2, 3] : List ℚ)).length = 3 ∧
    (NullLabeler.labels ([1, 2, 3] : List ℚ)).length = 3 := by
  obtain ⟨h1, h2, h3, h4, h5⟩ :=
    labelers_length_invariant (α := ℚ) strOfPyVal (fun q => toString q) (fun f _ => f)
      ⟨[PyVal.str "a", PyVal.str "b"]⟩ ⟨Option.none⟩ [1, 2, 3]
  refine ⟨?_, h2, h1⟩
  rw [h4 (by simp)]
  rfl

/-- C2: for `LinearLocator` with count `c ≥ 2`, `locations(start, end,
axisType)` uses `n = c` for 'major' and `n = c + 2` for 'minor', computes
`delta = (end - start)/(n - 1)`, emits `n - 1` positions `start + i*delta`
and appends the argument `end` itself as the literal final element; in
particular count 5 on `(0, 100)` 'major' gives `[0, 25, 50, 75, 100]`, and
'minor' gives 7 values ending in exactly `100`. -/
theorem linearLocator_locations_spec :
    (∀ (c : ℤ) (start e : ℚ), 2 ≤ c →
      LinearLocator.locations ⟨c⟩ start e "major" =
        some (((List.range (c - 1).toNat).map fun i : ℕ =>
          start + (i : ℚ) * ((e - start) / ((c : ℚ) - 1))) ++ [e]) ∧
      LinearLocator.locations ⟨c⟩ start e "minor" =
        some (((List.range (c + 1).toNat).map fun i : ℕ =>
          start + (i : ℚ) * ((e - start) / ((c : ℚ) + 1))) ++ [e])) ∧
    LinearLocator.locations ⟨5⟩ 0 100 "major" = some [0, 25, 50, 75, 100] ∧
    (∃ L, LinearLocator.locations ⟨5⟩ 0 100 "minor" = some L ∧
      L.length = 7 ∧ L.getLast? = some 100) := by
  have hmajor : ∀ (c : ℤ) (start e : ℚ), 2 ≤ c →
      LinearLocator.locations ⟨c⟩ start e "major" =
        some (((List.range (c - 1).toNat).map fun i : ℕ =>
          start + (i : ℚ) * ((e - start) / ((c : ℚ) - 1))) ++ [e]) := by
    intro c start e hc
    simp only [LinearLocator.locations,
      show (("major" : String) = "minor") = False by simp, if_false]
    rw [if_neg (show ¬(c = 1) by omega)]
  have hminor : ∀ (c : ℤ) (start e : ℚ), 2 ≤ c →
      LinearLocator.locations ⟨c⟩ start e "minor" =
        some (((List.range (c + 1).toNat).map fun i : ℕ =>
          start + (i : ℚ) * ((e - start) / ((c : ℚ) + 1))) ++ [e]) := by
    intro c start e hc
    simp only [LinearLocator.locations,
      show (("minor" : String) = "minor") = True by simp, if_true]
    rw [if_neg (show ¬(c + 2 = 1) by omega)]
    rw [show (c + 2 - 1 : ℤ) = c + 1 from by ring]
    rw [show ((c + 2 : ℤ) : ℚ) - 1 = (c : ℚ) + 1 from by push_cast; ring]
  refine ⟨fun c start e hc => ⟨hmajor c start e hc, hminor c start e hc⟩, ?_, ?_⟩
  · rw [hmajor 5 0 100 (by norm_num),
      show List.range ((5 - 1 : ℤ)).toNat = [0, 1, 2, 3] from rfl]
    norm_num
  · refine ⟨[0, 50/3, 100/3, 50, 200/3, 250/3, 100], ?_, by norm_num, by norm_num⟩
    rw [hminor 5 0 100 (by norm_num),
      show List.range ((5 + 1 : ℤ)).toNat = [0, 1, 2, 3, 4, 5] from rfl]
    norm_num

/-- C2 witness: the general statement instantiated at count 5 on
`(0, 100)` 'major'. -/
theorem linearLocator_locations_spec_witness :
    LinearLocator.locations ⟨5⟩ (0 : ℚ) (100 : ℚ) "major" =
      some (((List.range ((5 - 1 : ℤ)).toNat).map fun i : ℕ =>
        (0 : ℚ) + (i : ℚ) * ((100 - 0) / ((5 : ℚ) - 1))) ++ [100]) :=
  (linearLocator_locations_spec.1 5 0 100 (by norm_num)).1

/-- C9: for `LinearLocator` with count 1 and axisType 'major' (`n = 1`),
the division `delta = (end - start)/(n - 1)` divides by zero: the call
raises `ZeroDivisionError` (modelled as `none`) instead of returning a
result, and the count-1 state is reachable via the constructor. -/
theorem linearLocator_count1_division_by_zero :
    (∀ start e : ℚ, LinearLocator.locations ⟨1⟩ start e "major" = Option.none) ∧
    LinearLocator.init (PyVal.int 1) = ⟨1⟩ := by
  exact ⟨fun start e => rfl, rfl⟩

/-- C3: every setter of every Locator and Labeler variant (setNum,
setLocations, setNTicks, setBase, setAnchor, setSubdivisions, setLabels,
setFormatter) validates its input and, on invalid input, leaves the
existing configuration unchanged; no setter can raise (each is a total
function whose Python body performs only `isinstance` tests).  In
particular `LinearLocator.setNum` with a non-integer leaves the prior count
in effect, so `locations` output is identical before and after the
rejected update. -/
theorem setters_silently_reject_invalid (v : PyVal) :
    (v.isInt = false → ∀ s : LinearLocator, LinearLocator.setNum v s = s) ∧
    (v.isInt = false → ∀ (s : LinearLocator) (start e : ℚ) (ax : String),
      LinearLocator.locations (LinearLocator.setNum v s) start e ax =
        LinearLocator.locations s start e ax) ∧
    (v.isListOrTuple = false → ∀ s : FixedLocator, FixedLocator.setLocations v s = s) ∧
    ((v ≠ PyVal.none ∧ v.isInt = false) → ∀ s : FixedLocator, FixedLocator.setNTicks v s = s) ∧
    (¬ (v.isNum = true ∧ 0 < v.toQ) → ∀ s : SpacedLocator, SpacedLocator.setBase v s = s) ∧
    ((v ≠ PyVal.none ∧ v.isNum = false) → ∀ s : SpacedLocator, SpacedLocator.setAnchor v s = s) ∧
    (v.isNum = false → ∀ s : LogLocator, LogLocator.setBase v s = s) ∧
    (v.isListOrTuple = false → ∀ s : LogLocator, LogLocator.setSubdivisions v s = s) ∧
    (v.isListOrTuple = false → ∀ s : StringLabeler, StringLabeler.setLabels v s = s) ∧
    ((v ≠ PyVal.none ∧ v.isStr = false) → ∀ s : FormatLabeler, FormatLabeler.setFormatter v s = s) := by
  have hnum : v.isInt = false → ∀ s : LinearLocator, LinearLocator.setNum v s = s := by
    intro h s
    cases v <;> simp_all [LinearLocator.setNum, PyVal.isInt]
  refine ⟨hnum, ?_, ?_, ?_, ?_, ?_, ?_, ?_, ?_, ?_⟩
  · intro h s start e ax
    rw [hnum h s]
  · intro h s
    cases v <;> simp_all [FixedLocator.setLocations, PyVal.isListOrTuple]
  · intro h s
    cases v <;> simp_all [FixedLocator.setNTicks, PyVal.isInt]
  · intro h s
    cases v <;> simp_all [SpacedLocator.setBase, PyVal.isNum, PyVal.toQ]
  · intro h s
    cases v <;> simp_all [SpacedLocator.setAnchor, PyVal.isNum]
  · intro h s
    cases v <;> simp_all [LogLocator.setBase, PyVal.isNum]
  · intro h s
    cases v <;> simp_all [LogLocator.setSubdivisions, PyVal.isListOrTuple]
  · intro h s
    cases v <;> simp_all [StringLabeler.setLabels, PyVal.isListOrTuple]
  · intro h s
    cases v <;> simp_all [FormatLabeler.setFormatter, PyVal.isStr]

/-- C3 witness: the string `"x"` is rejected by `setNum` (count stays 5 and
`locations` is unaffected), by `SpacedLocator.setBase`, and by
`FixedLocator.setNTicks`. -/
theorem setters_silently_reject_invalid_witness :
    LinearLocator.setNum (PyVal.str "x") ⟨5⟩ = ⟨5⟩ ∧
    LinearLocator.locations (LinearLocator.setNum (PyVal.str "x") ⟨5⟩) 0 100 "major" =
      LinearLocator.locations ⟨5⟩ 0 100 "major" ∧
    SpacedLocator.setBase (PyVal.str "x") ⟨1, Option.none⟩ = ⟨1, Option.none⟩ ∧
    FixedLocator.setNTicks (PyVal.str "x") ⟨[], some 3⟩ = ⟨[], some 3⟩ := by
  obtain ⟨h1, h2, h3, h4, h5, h6, h7, h8, h9, h10⟩ :=
    setters_silently_reject_invalid (PyVal.str "x")
  exact ⟨h1 rfl ⟨5⟩, h2 rfl ⟨5⟩ 0 100 "major",
    h5 (by simp [PyVal.isNum, PyVal.toQ]) ⟨1, Option.none⟩,
    h4 ⟨by simp, rfl⟩ ⟨[], some 3⟩⟩

/-- C8: `SpacedLocator.setValues` implements the tri-state anchor protocol:
an absent `anchor` key leaves the anchor unchanged, an explicit `None`
clears it to unset, and a numeric value sets it; the `base` key, when
supplied and valid, is applied independently in the same call. -/
theorem spaced_setValues_anchor_tristate (s : SpacedLocator) (baseArg : Option PyVal) :
    (SpacedLocator.setValues baseArg Option.none s)._anchor = s._anchor ∧
    (SpacedLocator.setValues baseArg (some PyVal.none) s)._anchor = Option.none ∧
    (∀ n : ℤ, (SpacedLocator.setValues baseArg (some (PyVal.int n)) s)._anchor = some (n : ℚ)) ∧
    (∀ q : ℚ, (SpacedLocator.setValues baseArg (some (PyVal.float q)) s)._anchor = some q) ∧
    (∀ anchorArg : Option PyVal,
      (SpacedLocator.setValues baseArg anchorArg s)._base =
        (SpacedLocator.setBase (baseArg.getD PyVal.none) s)._base) := by
  have hbase_anchor : ∀ (w : PyVal) (t : SpacedLocator),
      (SpacedLocator.setBase w t)._anchor = t._anchor := by
    intro w t
    cases w <;> simp [SpacedLocator.setBase] <;> split <;> rfl
  have hanchor_base : ∀ (w : PyVal) (t : SpacedLocator),
      (SpacedLocator.setAnchor w t)._base = t._base := by
    intro w t
    cases w <;> simp [SpacedLocator.setAnchor]
  refine ⟨?_, ?_, ?_, ?_, ?_⟩
  · have hstr : ∀ t : SpacedLocator, SpacedLocator.setAnchor (PyVal.str "") t = t :=
      fun t => rfl
    simp only [SpacedLocator.setValues, Option.getD, hstr]
    exact hbase_anchor _ s
  · simp [SpacedLocator.setValues, SpacedLocator.setAnchor]
  · intro n
    simp [SpacedLocator.setValues, SpacedLocator.setAnchor]
  · intro q
    simp [SpacedLocator.setValues, SpacedLocator.setAnchor]
  · intro anchorArg
    exact hanchor_base _ _

/-- Characterization of the forward walk: for positive `base` it returns
the arithmetic progression from `loc` whose proper prefix is below `e` and
whose final element is the first value `≥ e`. -/
theorem upWalk_spec (base e : ℚ) (hb : 0 < base) (loc : ℚ) :
    ∃ k : ℕ, SpacedLocator.upWalk base e loc =
        (List.range (k + 1)).map (fun i : ℕ => loc + (i : ℚ) * base) ∧
      (∀ i : ℕ, i < k → loc + (i : ℚ) * base < e) ∧ e ≤ loc + (k : ℚ) * base := by
  have hbne : base ≠ 0 := ne_of_gt hb
  suffices main : ∀ (n : ℕ) (loc : ℚ), (⌈(e - loc) / base⌉).toNat ≤ n →
      ∃ k : ℕ, SpacedLocator.upWalk base e loc =
          (List.range (k + 1)).map (fun i : ℕ => loc + (i : ℚ) * base) ∧
        (∀ i : ℕ, i < k → loc + (i : ℚ) * base < e) ∧ e ≤ loc + (k : ℚ) * base by
    exact main _ loc le_rfl
  intro n
  induction n with
  | zero =>
    intro loc hn
    have he : e ≤ loc := by
      by_contra hc
      push_neg at hc
      have hy : 0 < (e - loc) / base := div_pos (by linarith) hb
      have h1 : 1 ≤ ⌈(e - loc) / base⌉ := Int.ceil_pos.mpr hy
      omega
    exact ⟨0, by rw [upWalk_done he]; simp [show List.range 1 = [0] from rfl], by omega, by simpa using he⟩
  | succ m ih =>
    intro loc hn
    by_cases hlt : loc < e
    · have hdec : ⌈(e - (loc + base)) / base⌉ = ⌈(e - loc) / base⌉ - 1 := by
        rw [show (e - (loc + base)) / base = (e - loc) / base - 1 by field_simp; ring]
        exact Int.ceil_sub_one _
      have h1 : 1 ≤ ⌈(e - loc) / base⌉ := Int.ceil_pos.mpr (div_pos (by linarith) hb)
      obtain ⟨k, hk, hklt, hkge⟩ := ih (loc + base) (by omega)
      refine ⟨k + 1, ?_, ?_, ?_⟩
      · rw [upWalk_step hb hlt, hk]
        conv_rhs => rw [List.range_succ_eq_map, List.map_cons, List.map_map]
        congr 1
        · simp
        · refine List.map_congr_left fun i _ => ?_
          simp only [Function.comp_apply]
          push_cast
          ring
      · intro i hi
        cases i with
        | zero => simpa using hlt
        | succ j =>
          have hj := hklt j (by omega)
          push_cast at hj ⊢
          linarith
      · push_cast at hkge ⊢
        linarith
    · have he : e ≤ loc := not_lt.mp hlt
      exact ⟨0, by rw [upWalk_done he]; simp [show List.range 1 = [0] from rfl], by omega, by simpa using he⟩

/-- Characterization of the backward walk: for positive `base` it returns
the reversed arithmetic progression down from `loc`, all but the first
element above `start`, the first element being the first value `≤ start`. -/
theorem downWalk_spec (base st : ℚ) (hb : 0 < base) (loc : ℚ) :
    ∃ m : ℕ, SpacedLocator.downWalk base st loc =
        ((List.range (m + 1)).map (fun i : ℕ => loc - (i : ℚ) * base)).reverse ∧
      (∀ i : ℕ, i < m → st < loc - (i : ℚ) * base) ∧ loc - (m : ℚ) * base ≤ st := by
  have hbne : base ≠ 0 := ne_of_gt hb
  suffices main : ∀ (n : ℕ) (loc : ℚ), (⌈(loc - st) / base⌉).toNat ≤ n →
      ∃ m : ℕ, SpacedLocator.downWalk base st loc =
          ((List.range (m + 1)).map (fun i : ℕ => loc - (i : ℚ) * base)).reverse ∧
        (∀ i : ℕ, i < m → st < loc - (i : ℚ) * base) ∧ loc - (m : ℚ) * base ≤ st by
    exact main _ loc le_rfl
  intro n
  induction n with
  | zero =>
    intro loc hn
    have he : loc ≤ st := by
      by_contra hc
      push_neg at hc
      have hy : 0 < (loc - st) / base := div_pos (by linarith) hb
      have h1 : 1 ≤ ⌈(loc - st) / base⌉ := Int.ceil_pos.mpr hy
      omega
    exact ⟨0, by rw [downWalk_done he]; simp [show List.range 1 = [0] from rfl], by omega, by simpa using he⟩
  | succ m ih =>
    intro loc hn
    by_cases hlt : st < loc
    · have hdec : ⌈(loc - base - st) / base⌉ = ⌈(loc - st) / base⌉ - 1 := by
        rw [show (loc - base - st) / base = (loc - st) / base - 1 by field_simp; ring]
        exact Int.ceil_sub_one _
      have h1 : 1 ≤ ⌈(loc - st) / base⌉ := Int.ceil_pos.mpr (div_pos (by linarith) hb)
      obtain ⟨k, hk, hklt, hkge⟩ := ih (loc - base) (by omega)
      refine ⟨k + 1, ?_, ?_, ?_⟩
      · rw [downWalk_step hb hlt, hk]
        conv_rhs => rw [List.range_succ_eq_map, List.map_cons, List.reverse_cons,
          List.map_map]
        congr 1
        · congr 1
          refine List.map_congr_left fun i _ => ?_
          simp only [Function.comp_apply]
          push_cast
          ring
        · simp
      · intro i hi
        cases i with
        | zero => simpa using hlt
        | succ j =>
          have hj := hklt j (by omega)
          push_cast at hj ⊢
          linarith
      · push_cast at hkge ⊢
        linarith
    · have he : loc ≤ st := not_lt.mp hlt
      exact ⟨0, by rw [downWalk_done he]; simp [show List.range 1 = [0] from rfl], by omega, by simpa using he⟩

theorem upWalk_self_mem (base e loc : ℚ) : loc ∈ SpacedLocator.upWalk base e loc := by
  rw [upWalk_unfold]
  split <;> simp

theorem downWalk_self_mem (base st loc : ℚ) : loc ∈ SpacedLocator.downWalk base st loc := by
  rw [downWalk_unfold]
  split <;> simp

/-- C4: for `SpacedLocator` with positive base and `start ≤ end`: with the
anchor unset, `locations` is the arithmetic walk from `start` by `base`,
each value emitted while `< end` plus one final value `≥ end` (e.g. base 2
on `(0,10)` gives `[0,2,4,6,8,10]`); with the anchor set, it is the
backward walk from `anchor` (values `> start` plus one final prepended
value `≤ start`, anchor included) followed by the forward walk from
`anchor + base` (values `< end` plus one final appended value `≥ end`). -/
theorem spacedLocator_locations_spec (base start e : ℚ) (ax : String)
    (hb : 0 < base) (hse : start ≤ e) :
    (∃ k : ℕ, SpacedLocator.locations ⟨base, Option.none⟩ start e ax =
        (List.range (k + 1)).map (fun i : ℕ => start + (i : ℚ) * base) ∧
      (∀ i : ℕ, i < k → start + (i : ℚ) * base < e) ∧ e ≤ start + (k : ℚ) * base) ∧
    (∀ a : ℚ, ∃ m k : ℕ,
      SpacedLocator.locations ⟨base, some a⟩ start e ax =
        ((List.range (m + 1)).map (fun i : ℕ => a - (i : ℚ) * base)).reverse ++
          (List.range (k + 1)).map (fun i : ℕ => (a + base) + (i : ℚ) * base) ∧
      (∀ i : ℕ, i < m → start < a - (i : ℚ) * base) ∧ a - (m : ℚ) * base ≤ start ∧
      (∀ i : ℕ, i < k → (a + base) + (i : ℚ) * base < e) ∧
      e ≤ (a + base) + (k : ℚ) * base) ∧
    SpacedLocator.locations ⟨2, Option.none⟩ 0 10 "major" = [0, 2, 4, 6, 8, 10] := by
  refine ⟨?_, ?_, ?_⟩
  · obtain ⟨k, hk, hlt, hge⟩ := upWalk_spec base e hb start
    exact ⟨k, hk, hlt, hge⟩
  · intro a
    obtain ⟨m, hm, hmlt, hmle⟩ := downWalk_spec base start hb a
    obtain ⟨k, hk, hklt, hkge⟩ := upWalk_spec base e hb (a + base)
    exact ⟨m, k, by simp only [SpacedLocator.locations, hm, hk], hmlt, hmle, hklt, hkge⟩
  · show SpacedLocator.upWalk 2 10 0 = [0, 2, 4, 6, 8, 10]
    norm_num [upWalk_step, upWalk_done]

/-- C4 witness: the unanchored statement at base 2 on `(0, 10)` and the
anchored statement at base 5, anchor 3 on `(0, 20)`. -/
theorem spacedLocator_locations_spec_witness :
    (∃ k : ℕ, SpacedLocator.locations ⟨2, Option.none⟩ (0 : ℚ) (10 : ℚ) "major" =
        (List.range (k + 1)).map (fun i : ℕ => (0 : ℚ) + (i : ℚ) * 2) ∧
      (∀ i : ℕ, i < k → (0 : ℚ) + (i : ℚ) * 2 < 10) ∧ (10 : ℚ) ≤ 0 + (k : ℚ) * 2) ∧
    (∃ m k : ℕ, SpacedLocator.locations ⟨5, some 3⟩ (0 : ℚ) (20 : ℚ) "major" =
        ((List.range (m + 1)).map (fun i : ℕ => (3 : ℚ) - (i : ℚ) * 5)).reverse ++
          (List.range (k + 1)).map (fun i : ℕ => ((3 : ℚ) + 5) + (i : ℚ) * 5) ∧
      (∀ i : ℕ, i < m → (0 : ℚ) < 3 - (i : ℚ) * 5) ∧ (3 : ℚ) - (m : ℚ) * 5 ≤ 0 ∧
      (∀ i : ℕ, i < k → ((3 : ℚ) + 5) + (i : ℚ) * 5 < 20) ∧
      (20 : ℚ) ≤ (3 + 5) + (k : ℚ) * 5) :=
  ⟨(spacedLocator_locations_spec 2 0 10 "major" (by norm_num) (by norm_num)).1,
   (spacedLocator_locations_spec 5 0 20 "major" (by norm_num) (by norm_num)).2.1 3⟩

/-- C10: for `SpacedLocator` with anchor set and positive base, the result
of `locations` always contains both `anchor` and `anchor + base`, for every
`start` and `end`; consequently, when `anchor > end` the output contains
positions greater than `end` — anchored tick positions are not confined to
the requested range. -/
theorem spaced_anchored_not_confined (base a start e : ℚ) (ax : String) (hb : 0 < base) :
    a ∈ SpacedLocator.locations ⟨base, some a⟩ start e ax ∧
    a + base ∈ SpacedLocator.locations ⟨base, some a⟩ start e ax ∧
    (e < a → ∃ x ∈ SpacedLocator.locations ⟨base, some a⟩ start e ax, e < x) := by
  have hmem1 : a ∈ SpacedLocator.locations ⟨base, some a⟩ start e ax := by
    show a ∈ SpacedLocator.downWalk base start a ++ SpacedLocator.upWalk base e (a + base)
    exact List.mem_append_left _ (downWalk_self_mem base start a)
  have hmem2 : a + base ∈ SpacedLocator.locations ⟨base, some a⟩ start e ax := by
    show a + base ∈ SpacedLocator.downWalk base start a ++ SpacedLocator.upWalk base e (a + base)
    exact List.mem_append_right _ (upWalk_self_mem base e (a + base))
  exact ⟨hmem1, hmem2, fun hea => ⟨a, hmem1, hea⟩⟩

/-- C10 witness: with base 1 and anchor 10 on the range `(0, 5)`, the
output contains `10` and `11`, and in particular a position beyond the
requested end `5`. -/
theorem spaced_anchored_not_confined_witness :
    (10 : ℚ) ∈ SpacedLocator.locations ⟨1, some 10⟩ (0 : ℚ) (5 : ℚ) "major" ∧
    (10 : ℚ) + 1 ∈ SpacedLocator.locations ⟨1, some 10⟩ (0 : ℚ) (5 : ℚ) "major" ∧
    ∃ x ∈ SpacedLocator.locations ⟨1, some 10⟩ (0 : ℚ) (5 : ℚ) "major", (5 : ℚ) < x := by
  obtain ⟨h1, h2, h3⟩ := spaced_anchored_not_confined 1 10 0 5 "major" (by norm_num)
  exact ⟨h1, h2, h3 (by norm_num)⟩

/-- C6: `FixedLocator.locations` ignores `start`/`end` entirely; with
`nTicks` unset or at least the number of configured positions it returns
all positions unchanged and in the given order; otherwise it subsamples at
indices `round(i * (len-1)/(nTicks-1))` for `i` in `0..nTicks-2` followed
by the last position, so the first and last configured positions are
always present (duplicate indices are kept, not deduplicated). -/
theorem fixedLocator_locations_spec (s : FixedLocator) :
    (∀ (s1 e1 s2 e2 : ℚ) (ax1 ax2 : String),
      FixedLocator.locations s s1 e1 ax1 = FixedLocator.locations s s2 e2 ax2) ∧
    (s._nTicks = Option.none → ∀ (s1 e1 : ℚ) (ax : String),
      FixedLocator.locations s s1 e1 ax = (s, s._locations)) ∧
    (∀ t : ℤ, s._nTicks = some t → (s._locations.length : ℤ) ≤ t →
      ∀ (s1 e1 : ℚ) (ax : String),
        FixedLocator.locations s s1 e1 ax = (s, s._locations)) ∧
    (∀ t : ℤ, s._nTicks = some t → 2 ≤ t → t < (s._locations.length : ℤ) →
      ∀ (s1 e1 : ℚ) (ax : String),
        (FixedLocator.locations s s1 e1 ax).2 =
          ((List.range (t - 1).toNat).map fun i : ℕ =>
            s._locations.getD
              (pyRound ((i : ℚ) *
                (((s._locations.length : ℚ) - 1) / ((t : ℚ) - 1)))).toNat
              PyVal.none) ++ [(s._locations.getLast?).getD PyVal.none] ∧
        (FixedLocator.locations s s1 e1 ax).2.head? = s._locations.head? ∧
        (FixedLocator.locations s s1 e1 ax).2.getLast? = s._locations.getLast?) := by
  obtain ⟨locs, nt⟩ := s
  refine ⟨fun s1 e1 s2 e2 ax1 ax2 => rfl, ?_, ?_, ?_⟩
  · intro hnone s1 e1 ax
    simp only at hnone
    subst hnone
    rfl
  · intro t ht hle s1 e1 ax
    simp only at ht
    subst ht
    simp only [FixedLocator.locations]
    rw [if_pos hle]
  · intro t ht h2t hlen s1 e1 ax
    simp only at ht
    subst ht
    have hnl : ¬ ((locs.length : ℤ) ≤ t) := not_le.mpr hlen
    have hn2 : ¬ (t < 2) := not_lt.mpr h2t
    have hcast : (((t - 1 : ℤ)) : ℚ) = (t : ℚ) - 1 := by push_cast; ring
    have hmain : (FixedLocator.locations ⟨locs, some t⟩ s1 e1 ax).2 =
        ((List.range (t - 1).toNat).map fun i : ℕ =>
          locs.getD
            (pyRound ((i : ℚ) * (((locs.length : ℚ) - 1) / ((t : ℚ) - 1)))).toNat
            PyVal.none) ++ [(locs.getLast?).getD PyVal.none] := by
      simp only [FixedLocator.locations]
      rw [if_neg hnl, if_neg hn2, hcast]
    have hne : locs ≠ [] := by
      intro hempty
      rw [hempty] at hlen
      simp at hlen
      omega
    refine ⟨hmain, ?_, ?_⟩
    · rw [hmain]
      obtain ⟨j, hj⟩ : ∃ j, (t - 1).toNat = j + 1 := ⟨(t - 1).toNat - 1, by omega⟩
      rw [hj, List.range_succ_eq_map, List.map_cons, List.cons_append, List.head?_cons]
      have hr0 : pyRound (((0 : ℕ) : ℚ) *
          (((locs.length : ℚ) - 1) / ((t : ℚ) - 1))) = 0 := by
        norm_num [pyRound]
      rw [hr0]
      obtain ⟨x, xs, hx⟩ : ∃ x xs, locs = x :: xs := by
        cases locs with
        | nil => exact absurd rfl hne
        | cons x xs => exact ⟨x, xs, rfl⟩
      rw [hx]
      rfl
    · rw [hmain, List.getLast?_concat]
      cases hgl : locs.getLast? with
      | none =>
        exact absurd (List.getLast?_eq_none_iff.mp hgl) hne
      | some w => rfl

/-- C6 witness: `[1..10]` with `nTicks` unset passes through unchanged; with
`nTicks = 3` the subsample is `[1, 6, 10]` (index `round(4.5)` is `5` under
the round-half-away-from-zero rule, picking the value `6`), keeping the
first and last positions. -/
theorem fixedLocator_locations_spec_witness :
    FixedLocator.locations
      ⟨[PyVal.int 1, PyVal.int 2, PyVal.int 3, PyVal.int 4, PyVal.int 5, PyVal.int 6,
        PyVal.int 7, PyVal.int 8, PyVal.int 9, PyVal.int 10], Option.none⟩
      (0 : ℚ) (0 : ℚ) "major" =
      (⟨[PyVal.int 1, PyVal.int 2, PyVal.int 3, PyVal.int 4, PyVal.int 5, PyVal.int 6,
        PyVal.int 7, PyVal.int 8, PyVal.int 9, PyVal.int 10], Option.none⟩,
       [PyVal.int 1, PyVal.int 2, PyVal.int 3, PyVal.int 4, PyVal.int 5, PyVal.int 6,
        PyVal.int 7, PyVal.int 8, PyVal.int 9, PyVal.int 10]) ∧
    (FixedLocator.locations
      ⟨[PyVal.int 1, PyVal.int 2, PyVal.int 3, PyVal.int 4, PyVal.int 5, PyVal.int 6,
        PyVal.int 7, PyVal.int 8, PyVal.int 9, PyVal.int 10], some 3⟩
      (0 : ℚ) (0 : ℚ) "major").2 = [PyVal.int 1, PyVal.int 6, PyVal.int 10] := by
  constructor
  · exact (fixedLocator_locations_spec _).2.1 rfl 0 0 "major"
  · have h := ((fixedLocator_locations_spec
      ⟨[PyVal.int 1, PyVal.int 2, PyVal.int 3, PyVal.int 4, PyVal.int 5, PyVal.int 6,
        PyVal.int 7, PyVal.int 8, PyVal.int 9, PyVal.int 10], some 3⟩).2.2.2 3 rfl
      (by norm_num) (by norm_num) 0 0 "major").1
    rw [h]
    rw [show List.range ((3 - 1 : ℤ)).toNat = [0, 1] from rfl, List.map_cons,
      List.map_cons, List.map_nil]
    have hlen : ((List.length [PyVal.int 1, PyVal.int 2, PyVal.int 3, PyVal.int 4,
      PyVal.int 5, PyVal.int 6, PyVal.int 7, PyVal.int 8, PyVal.int 9,
      PyVal.int 10] : ℕ) : ℚ) = 10 := by rfl
    rw [hlen]
    have hr0 : pyRound (((0 : ℕ) : ℚ) * (((10 : ℚ) - 1) / (((3 : ℤ) : ℚ) - 1))) = 0 := by
      norm_num [pyRound]
    have hr1 : pyRound (((1 : ℕ) : ℚ) * (((10 : ℚ) - 1) / (((3 : ℤ) : ℚ) - 1))) = 5 := by
      norm_num [pyRound]
    rw [hr0, hr1]
    rfl

theorem setLocations_nTicks (v : PyVal) (s : FixedLocator) :
    (FixedLocator.setLocations v s)._nTicks = s._nTicks := by
  unfold FixedLocator.setLocations
  split <;> rfl

theorem setNTicks_ok (v : PyVal) (s : FixedLocator) (h : FixedLocator.nTicksOK s) :
    FixedLocator.nTicksOK (FixedLocator.setNTicks v s) := by
  cases v with
  | int n =>
    right
    refine ⟨if n < 2 then 2 else n, rfl, ?_⟩
    split <;> omega
  | none => left; rfl
  | float q => exact h
  | str a => exact h
  | list l => exact h
  | tuple l => exact h

theorem setLocations_ok (v : PyVal) (s : FixedLocator) (h : FixedLocator.nTicksOK s) :
    FixedLocator.nTicksOK (FixedLocator.setLocations v s) := by
  unfold FixedLocator.nTicksOK
  rw [setLocations_nTicks]
  exact h

/-- Every state reachable through the constructor and setters has `nTicks`
either unset or clamped to at least `2`. -/
theorem reachable_nTicksOK {s : FixedLocator} (h : FixedLocator.Reachable s) :
    FixedLocator.nTicksOK s := by
  induction h with
  | init locArg nTicksArg =>
    exact setNTicks_ok _ _ (setLocations_ok _ _ (Or.inl rfl))
  | setLocations v h ih => exact setLocations_ok _ _ ih
  | setNTicks v h ih => exact setNTicks_ok _ _ ih
  | setValues locArg nTicksArg h ih =>
    unfold FixedLocator.setValues
    cases nTicksArg with
    | none =>
      cases locArg with
      | none => exact ih
      | some v => exact setLocations_ok _ _ ih
    | some v =>
      cases locArg with
      | none => exact setNTicks_ok _ _ ih
      | some w => exact setNTicks_ok _ _ (setLocations_ok _ _ ih)

/-- C7: for every configuration reachable through the constructor and
setters, `FixedLocator.locations` does not mutate the configuration (the
in-method clamp is never triggered because `setNTicks` already clamps), so
two consecutive calls with identical arguments return identical results.
All other Locator variants and all Labeler variants are embedded as pure
functions of the configuration — their source methods write no attribute —
so the same property holds for them definitionally; `FixedLocator` is the
one variant whose source contains a write, hence the one with content. -/
theorem fixedLocator_locations_pure {s : FixedLocator}
    (h : FixedLocator.Reachable s) (start e : ℚ) (ax : String) :
    (FixedLocator.locations s start e ax).1 = s ∧
    FixedLocator.locations (FixedLocator.locations s start e ax).1 start e ax =
      FixedLocator.locations s start e ax := by
  have hok := reachable_nTicksOK h
  obtain ⟨locs, nt⟩ := s
  have h1 : (FixedLocator.locations ⟨locs, nt⟩ start e ax).1 = ⟨locs, nt⟩ := by
    rcases hok with hnone | ⟨t, ht, h2t⟩
    · simp only at hnone
      subst hnone
      rfl
    · simp only at ht
      subst ht
      simp only [FixedLocator.locations]
      by_cases hle : (locs.length : ℤ) ≤ t
      · rw [if_pos hle]
      · rw [if_neg hle, if_neg (not_lt.mpr h2t)]
  exact ⟨h1, by rw [h1]⟩

/-- C7 witness: a concrete reachable state (constructed with positions
`[1,2,3]` and `nTicks = 2`) is returned unchanged by `locations`, and a
second call agrees with the first. -/
theorem fixedLocator_locations_pure_witness :
    (FixedLocator.locations
        (FixedLocator.init (PyVal.list [PyVal.int 1, PyVal.int 2, PyVal.int 3])
          (PyVal.int 2)) 0 1 "major").1 =
      FixedLocator.init (PyVal.list [PyVal.int 1, PyVal.int 2, PyVal.int 3])
        (PyVal.int 2) ∧
    FixedLocator.locations
        (FixedLocator.locations
          (FixedLocator.init (PyVal.list [PyVal.int 1, PyVal.int 2, PyVal.int 3])
            (PyVal.int 2)) 0 1 "major").1 0 1 "major" =
      FixedLocator.locations
        (FixedLocator.init (PyVal.list [PyVal.int 1, PyVal.int 2, PyVal.int 3])
          (PyVal.int 2)) 0 1 "major" :=
  fixedLocator_locations_pure (FixedLocator.Reachable.init _ _) 0 1 "major"

theorem flogAux_of_lt {b : ℚ} (f : ℕ) {x : ℚ} (h : x < b) : flogAux b f x = 0 := by
  cases f with
  | zero => rfl
  | succ m =>
    unfold flogAux
    rw [if_neg (not_le.mpr h)]

theorem clogAux_of_le {b : ℚ} (f : ℕ) {x : ℚ} (h : x ≤ 1) : clogAux b f x = 0 := by
  cases f with
  | zero => rfl
  | succ m =>
    unfold clogAux
    rw [if_neg (not_lt.mpr h)]

/-- With enough fuel, `flogAux` returns the exponent `k` characterized by
`b ^ k ≤ x < b ^ (k+1)`. -/
theorem flogAux_eq {b : ℚ} (hb : 1 < b) :
    ∀ (k : ℕ) (x : ℚ) (f : ℕ), 1 ≤ x → b ^ k ≤ x → x < b ^ (k + 1) → k < f →
      flogAux b f x = k := by
  intro k
  induction k with
  | zero =>
    intro x f _ _ hx2 _
    exact flogAux_of_lt f (by simpa using hx2)
  | succ j ih =>
    intro x f hx1 hlo hhi hf
    obtain ⟨m, rfl⟩ : ∃ m, f = m + 1 := ⟨f - 1, by omega⟩
    have hb0 : (0 : ℚ) < b := lt_trans one_pos hb
    have hble : b ≤ x := le_trans (le_self_pow₀ (le_of_lt hb) (by omega)) hlo
    unfold flogAux
    rw [if_pos hble]
    have h1 : (1 : ℚ) ≤ x / b := (le_div_iff₀ hb0).mpr (by simpa using hble)
    have h2 : b ^ j ≤ x / b := (le_div_iff₀ hb0).mpr (by rw [← pow_succ]; exact hlo)
    have h3 : x / b < b ^ (j + 1) := (div_lt_iff₀ hb0).mpr (by rw [← pow_succ]; exact hhi)
    rw [ih (x / b) m h1 h2 h3 (by omega)]

/-- With enough fuel, `clogAux` returns `k + 1` where `b ^ k < x ≤ b ^ (k+1)`. -/
theorem clogAux_eq {b : ℚ} (hb : 1 < b) :
    ∀ (k : ℕ) (x : ℚ) (f : ℕ), b ^ k < x → x ≤ b ^ (k + 1) → k < f →
      clogAux b f x = k + 1 := by
  intro k
  induction k with
  | zero =>
    intro x f hlo hhi hf
    obtain ⟨m, rfl⟩ : ∃ m, f = m + 1 := ⟨f - 1, by omega⟩
    have hb0 : (0 : ℚ) < b := lt_trans one_pos hb
    unfold clogAux
    rw [if_pos (by simpa using hlo)]
    rw [clogAux_of_le m ((div_le_one hb0).mpr (by simpa using hhi))]
  | succ j ih =>
    intro x f hlo hhi hf
    obtain ⟨m, rfl⟩ : ∃ m, f = m + 1 := ⟨f - 1, by omega⟩
    have hb0 : (0 : ℚ) < b := lt_trans one_pos hb
    have h1x : (1 : ℚ) < x := by
      have hone : (1 : ℚ) ≤ b ^ (j + 1) := by
        calc (1 : ℚ) = b ^ 0 := (pow_zero b).symm
        _ ≤ b ^ (j + 1) := pow_le_pow_right₀ (le_of_lt hb) (by omega)
      exact lt_of_le_of_lt hone hlo
    unfold clogAux
    rw [if_pos h1x]
    have h2 : b ^ j < x / b := (lt_div_iff₀ hb0).mpr (by rw [← pow_succ]; exact hlo)
    have h3 : x / b ≤ b ^ (j + 1) := (div_le_iff₀ hb0).mpr (by rw [← pow_succ]; exact hhi)
    rw [ih (x / b) m h2 h3 (by omega)]

/-- A rational greater than `1` exceeds `1` by at least the inverse of its
denominator. -/
theorem rat_one_add_inv_den_le {b : ℚ} (hb : 1 < b) : 1 + ((b.den : ℚ))⁻¹ ≤ b := by
  have hd0 : (0 : ℚ) < (b.den : ℚ) := by exact_mod_cast b.den_pos
  have hnum : (b.num : ℚ) = b * (b.den : ℚ) := by
    have hdne : ((b.den : ℚ)) ≠ 0 := ne_of_gt hd0
    calc (b.num : ℚ) = ((b.num : ℚ) / (b.den : ℚ)) * (b.den : ℚ) :=
      (div_mul_cancel₀ _ hdne).symm
    _ = b * (b.den : ℚ) := by rw [Rat.num_div_den b]
  have hdn : (b.den : ℤ) < b.num := by
    have : (b.den : ℚ) < (b.num : ℚ) := by nlinarith [hnum]
    exact_mod_cast this
  have h1 : ((b.den : ℚ)) + 1 ≤ (b.num : ℚ) := by
    have : (b.den : ℤ) + 1 ≤ b.num := by omega
    exact_mod_cast this
  calc 1 + ((b.den : ℚ))⁻¹ = ((b.den : ℚ) + 1) / (b.den : ℚ) := by field_simp
  _ ≤ ((b.num : ℚ)) / (b.den : ℚ) := (div_le_div_iff_of_pos_right hd0).mpr h1
  _ = b := Rat.num_div_den b

/-- The fuel `logFuel b x` is enough: any exponent with `b ^ k ≤ x` is below it. -/
theorem pow_fuel_bound {b : ℚ} (hb : 1 < b) {x : ℚ} {k : ℕ} (hk : b ^ k ≤ x) :
    k < logFuel b x := by
  have hd0 : (0 : ℚ) < (b.den : ℚ) := by exact_mod_cast b.den_pos
  have hx1 : (1 : ℚ) ≤ x := by
    calc (1 : ℚ) = b ^ 0 := (pow_zero b).symm
    _ ≤ b ^ k := pow_le_pow_right₀ (le_of_lt hb) (by omega)
    _ ≤ x := hk
  have hbern : 1 + (k : ℚ) * ((b.den : ℚ))⁻¹ ≤ b ^ k := by
    have hinv : (0 : ℚ) ≤ ((b.den : ℚ))⁻¹ := by positivity
    calc 1 + (k : ℚ) * ((b.den : ℚ))⁻¹ ≤ (1 + ((b.den : ℚ))⁻¹) ^ k :=
      one_add_mul_le_pow (by linarith) k
    _ ≤ b ^ k := pow_le_pow_left₀ (by linarith) (rat_one_add_inv_den_le hb) k
  have h2 : (k : ℚ) * ((b.den : ℚ))⁻¹ < x := by nlinarith
  have h3 : (k : ℚ) < x * (b.den : ℚ) := by
    rw [show (k : ℚ) * ((b.den : ℚ))⁻¹ = (k : ℚ) / (b.den : ℚ) by ring] at h2
    exact (div_lt_iff₀ hd0).mp h2
  have h4 : x ≤ (⌈x⌉₊ : ℚ) := Nat.le_ceil x
  have h5 : (k : ℚ) < (⌈x⌉₊ : ℚ) * (b.den : ℚ) := lt_of_lt_of_le h3 (by nlinarith)
  have h6 : k < ⌈x⌉₊ * b.den := by exact_mod_cast h5
  have h7 : ⌈x⌉₊ * b.den = b.den * ⌈x⌉₊ := Nat.mul_comm _ _
  unfold logFuel
  omega

/-- Characterizes `pyFloorLog` as the floor of the base-`b` logarithm:
`b ^ pyFloorLog b x ≤ x < b ^ (pyFloorLog b x + 1)`. -/
theorem pyFloorLog_spec {b : ℚ} (hb : 1 < b) {x : ℚ} (hx : 0 < x) :
    b ^ pyFloorLog b x ≤ x ∧ x < b ^ (pyFloorLog b x + 1) := by
  have hb0 : (0 : ℚ) < b := lt_trans one_pos hb
  by_cases h1x : 1 ≤ x
  · obtain ⟨n, hn1, hn2⟩ := exists_nat_pow_near h1x hb
    have hfl : flogAux b (logFuel b x) x = n :=
      flogAux_eq hb n x _ h1x hn1 hn2 (pow_fuel_bound hb hn1)
    unfold pyFloorLog
    rw [if_pos h1x, hfl]
    constructor
    · rw [zpow_natCast]
      exact hn1
    · rw [show ((n : ℤ) + 1) = ((n + 1 : ℕ) : ℤ) by push_cast; ring, zpow_natCast]
      exact hn2
  · push_neg at h1x
    have hxi : 1 < x⁻¹ := (one_lt_inv₀ hx).mpr h1x
    obtain ⟨n, hn1, hn2⟩ := exists_nat_pow_near (le_of_lt hxi) hb
    rcases lt_or_eq_of_le hn1 with hlt | heq
    · have hcl : clogAux b (logFuel b x⁻¹) x⁻¹ = n + 1 :=
        clogAux_eq hb n x⁻¹ _ hlt (le_of_lt hn2) (pow_fuel_bound hb hn1)
      unfold pyFloorLog
      rw [if_neg (not_le.mpr h1x), hcl]
      constructor
      · rw [zpow_neg, zpow_natCast]
        have h := inv_anti₀ (inv_pos.mpr hx) (le_of_lt hn2)
        rwa [inv_inv] at h
      · rw [show (-(((n + 1 : ℕ) : ℤ)) + 1) = -((n : ℕ) : ℤ) by push_cast; ring,
          zpow_neg, zpow_natCast]
        have h := inv_strictAnti₀ (pow_pos hb0 n) hlt
        rwa [inv_inv] at h
    · have hn0 : n ≠ 0 := by
        intro h0
        rw [h0, pow_zero] at heq
        rw [← heq] at hxi
        exact lt_irrefl _ hxi
      obtain ⟨j, rfl⟩ : ∃ j, n = j + 1 := ⟨n - 1, by omega⟩
      have hjlt : b ^ j < x⁻¹ := by
        rw [← heq]
        exact pow_lt_pow_right₀ hb (by omega)
      have hjle : x⁻¹ ≤ b ^ (j + 1) := le_of_eq heq.symm
      have hcl : clogAux b (logFuel b x⁻¹) x⁻¹ = j + 1 :=
        clogAux_eq hb j x⁻¹ _ hjlt hjle (pow_fuel_bound hb (le_of_lt hjlt))
      unfold pyFloorLog
      rw [if_neg (not_le.mpr h1x), hcl]
      constructor
      · rw [zpow_neg, zpow_natCast]
        rw [show x = (b ^ (j + 1))⁻¹ by rw [heq, inv_inv]]
      · rw [show (-(((j + 1 : ℕ) : ℤ)) + 1) = -((j : ℕ) : ℤ) by push_cast; ring,
          zpow_neg, zpow_natCast]
        have h := inv_strictAnti₀ (pow_pos hb0 j) hjlt
        rwa [inv_inv] at h

/-- Characterizes `pyCeilLog` as the ceiling of the base-`b` logarithm:
`b ^ (pyCeilLog b x - 1) < x ≤ b ^ pyCeilLog b x`. -/
theorem pyCeilLog_spec {b : ℚ} (hb : 1 < b) {x : ℚ} (hx : 0 < x) :
    b ^ (pyCeilLog b x - 1) < x ∧ x ≤ b ^ pyCeilLog b x := by
  have hb0 : (0 : ℚ) < b := lt_trans one_pos hb
  by_cases h1x : 1 ≤ x
  · rcases lt_or_eq_of_le h1x with hgt | heq
    · obtain ⟨n, hn1, hn2⟩ := exists_nat_pow_near h1x hb
      rcases lt_or_eq_of_le hn1 with hlt | heq2
      · have hcl : clogAux b (logFuel b x) x = n + 1 :=
          clogAux_eq hb n x _ hlt (le_of_lt hn2) (pow_fuel_bound hb hn1)
        unfold pyCeilLog
        rw [if_pos h1x, hcl]
        constructor
        · rw [show (((n + 1 : ℕ) : ℤ) - 1) = ((n : ℕ) : ℤ) by push_cast; ring,
            zpow_natCast]
          exact hlt
        · rw [zpow_natCast]
          exact le_of_lt hn2
      · have hn0 : n ≠ 0 := by
          intro h0
          rw [h0, pow_zero] at heq2
          rw [← heq2] at hgt
          exact lt_irrefl _ hgt
        obtain ⟨j, rfl⟩ : ∃ j, n = j + 1 := ⟨n - 1, by omega⟩
        have hjlt : b ^ j < x := by
          rw [← heq2]
          exact pow_lt_pow_right₀ hb (by omega)
        have hcl : clogAux b (logFuel b x) x = j + 1 :=
          clogAux_eq hb j x _ hjlt (le_of_eq heq2.symm)
            (pow_fuel_bound hb (le_of_lt hjlt))
        unfold pyCeilLog
        rw [if_pos h1x, hcl]
        constructor
        · rw [show (((j + 1 : ℕ) : ℤ) - 1) = ((j : ℕ) : ℤ) by push_cast; ring,
            zpow_natCast]
          exact hjlt
        · rw [zpow_natCast]
          exact le_of_eq heq2.symm
    · unfold pyCeilLog
      rw [if_pos h1x, clogAux_of_le _ (le_of_eq heq.symm)]
      constructor
      · rw [show (((0 : ℕ) : ℤ) - 1) = (-1 : ℤ) by norm_num]
        rw [← heq]
        rw [show (b : ℚ) ^ (-1 : ℤ) = b⁻¹ from zpow_neg_one b]
        exact inv_lt_one_of_one_lt₀ hb
      · rw [show ((0 : ℕ) : ℤ) = (0 : ℤ) from rfl, zpow_zero]
        exact le_of_eq heq.symm
  · push_neg at h1x
    have hxi : 1 < x⁻¹ := (one_lt_inv₀ hx).mpr h1x
    obtain ⟨n, hn1, hn2⟩ := exists_nat_pow_near (le_of_lt hxi) hb
    have hfl : flogAux b (logFuel b x⁻¹) x⁻¹ = n :=
      flogAux_eq hb n x⁻¹ _ (le_of_lt hxi) hn1 hn2 (pow_fuel_bound hb hn1)
    unfold pyCeilLog
    rw [if_neg (not_le.mpr h1x), hfl]
    constructor
    · rw [show ((-((n : ℕ) : ℤ)) - 1) = -(((n + 1 : ℕ) : ℤ)) by push_cast; ring,
        zpow_neg, zpow_natCast]
      have h := inv_strictAnti₀ (inv_pos.mpr hx) hn2
      rwa [inv_inv] at h
    · rw [zpow_neg, zpow_natCast]
      have h := inv_anti₀ (pow_pos hb0 n) hn1
      rwa [inv_inv] at h

/-- C5: for `LogLocator` with base `b > 1`, `locations` computes
`firstExponent = floor(log_b(start))` and `lastExponent = ceil(log_b(end))`
(characterized here by `b^E ≤ start < b^(E+1)` and
`b^(L-1) < end ≤ b^L`), substituting `0` for either exponent when the
corresponding bound is `≤ 0` (the `except ValueError` fallback, never an
error), then for each exponent from first to last inclusive emits
`s * b^exponent` for each subdivision `s` in order; in particular base 10
with subdivisions `[1, 5]` on `(1, 100)` yields `[1,5,10,50,100,500]`. -/
theorem logLocator_locations_spec (b : ℚ) (subs : List PyVal) (start e : ℚ) (ax : String)
    (hb : 1 < b) (hsubs : subs.all PyVal.isNum = true) :
    (0 < start → b ^ pyFloorLog b start ≤ start ∧ start < b ^ (pyFloorLog b start + 1)) ∧
    (0 < e → b ^ (pyCeilLog b e - 1) < e ∧ e ≤ b ^ pyCeilLog b e) ∧
    LogLocator.locations ⟨b, subs⟩ start e ax =
      some ((List.range (((if 0 < e then pyCeilLog b e else 0) + 1 -
          (if 0 < start then pyFloorLog b start else 0)).toNat)).flatMap fun i : ℕ =>
        subs.map fun x =>
          x.toQ * b ^ ((if 0 < start then pyFloorLog b start else 0) + (i : ℤ))) ∧
    LogLocator.locations ⟨10, [PyVal.int 1, PyVal.int 5]⟩ 1 100 "major" =
      some [1, 5, 10, 50, 100, 500] := by
  refine ⟨fun h => pyFloorLog_spec hb h, fun h => pyCeilLog_spec hb h, ?_, ?_⟩
  · simp only [LogLocator.locations]
    rw [if_pos hsubs]
  · have e1 : pyFloorLog 10 1 = 0 := by
      unfold pyFloorLog
      rw [if_pos (by norm_num)]
      rw [flogAux_of_lt _ (by norm_num)]
      rfl
    have e2 : pyCeilLog 10 100 = 2 := by
      unfold pyCeilLog
      rw [if_pos (by norm_num)]
      rw [clogAux_eq (show (1 : ℚ) < 10 by norm_num) 1 100 (logFuel 10 100)
        (by norm_num) (by norm_num)
        (pow_fuel_bound (by norm_num) (by norm_num))]
      rfl
    simp only [LogLocator.locations]
    rw [if_pos (show List.all [PyVal.int 1, PyVal.int 5] PyVal.isNum = true from rfl)]
    rw [if_pos (show (0 : ℚ) < 1 by norm_num), if_pos (show (0 : ℚ) < 100 by norm_num),
      e1, e2]
    rw [show ((2 : ℤ) + 1 - 0).toNat = 3 from rfl,
      show List.range 3 = [0, 1, 2] from rfl]
    simp only [List.flatMap_cons, List.flatMap_nil, List.map_cons, List.map_nil,
      List.append_nil, List.cons_append, List.nil_append]
    norm_num [PyVal.toQ]

/-- C5 witness: the theorem instantiated at base 10, subdivisions `[1,5]`,
range `(1, 100)`. -/
theorem logLocator_locations_spec_witness :
    LogLocator.locations ⟨10, [PyVal.int 1, PyVal.int 5]⟩ 1 100 "major" =
      some [1, 5, 10, 50, 100, 500] :=
  (logLocator_locations_spec 10 [PyVal.int 1, PyVal.int 5] 1 100 "major"
    (by norm_num) rfl).2.2.2
